import Mathlib

/-!
Verification development for the efficient-image-compression scripts.

The repository contains five JavaScript variants of a size-constrained
image-recompression tool.  We embed the quality-search logic of each
variant shallowly: the external JPEG encoder is an abstract function
from an integer quality to an output byte size (`Int → Nat` when every
encode succeeds, `Int → Option Nat` where the script can observe an
encode failure); the perceptual-similarity scorer is an abstract
function from a quality to a rational score.  File-system effects are
reflected in the returned records: the list of qualities at which an
encode was issued, the list of temp files still present at the end, and
what (if anything) ends up at the destination path.
-/

namespace ImgComp

/-- What ends up at the destination path: an unmodified copy of the
input, or a re-encoded file produced at quality `q` with byte size `s`. -/
inductive FinalOut where
  | copy : FinalOut
  | encoded : Int → Nat → FinalOut
deriving DecidableEq, Repr

/-! ## Probe sequences

`src/index.js` and the `part_00x` variants drive loops of the form
`while (quality >= qmin) { ...; quality -= step }` (descending) and
`while (quality <= qmax) { ...; quality += step }` (ascending).  We
materialise the sequence of loop-visited qualities as a list, via
structural recursion on a fuel that over-approximates the iteration
count (for a positive step the fuel `(q + 1 - qmin).toNat`, resp.
`(qmax + 1 - q).toNat`, is always sufficient). -/

/-- Qualities visited by a descending loop from `q` with the given step,
stopping as soon as the quality drops below `qmin`; fuel-driven. -/
def descendProbesGo (step : Nat) (qmin : Int) : Nat → Int → List Int
  | 0, _ => []
  | n + 1, q => if qmin ≤ q then q :: descendProbesGo step qmin n (q - step) else []

/-- Qualities visited by `while (quality >= qmin) { ...; quality -= step }`
starting at `q`. -/
def descendProbes (qmin : Int) (step : Nat) (q : Int) : List Int :=
  descendProbesGo step qmin (q + 1 - qmin).toNat q

/-- Qualities visited by an ascending loop from `q` with the given step,
stopping as soon as the quality exceeds `qmax`; fuel-driven. -/
def ascendProbesGo (step : Nat) (qmax : Int) : Nat → Int → List Int
  | 0, _ => []
  | n + 1, q => if q ≤ qmax then q :: ascendProbesGo step qmax n (q + step) else []

/-- Qualities visited by `while (quality <= qmax) { ...; quality += step }`
starting at `q`. -/
def ascendProbes (qmax : Int) (step : Nat) (q : Int) : List Int :=
  ascendProbesGo step qmax (qmax + 1 - q).toNat q

/-- The descending loop itself: probe qualities from `q` downward by
`step` while `q ≥ qmin`, returning the first quality accepted by the
predicate (the loop `break`s there), `none` when the loop runs out. -/
def searchGo (accept : Int → Bool) (step : Nat) (qmin : Int) : Nat → Int → Option Int
  | 0, _ => none
  | n + 1, q =>
    if qmin ≤ q then
      if accept q then some q else searchGo accept step qmin n (q - step)
    else none

/-- Linear descent as in the primary loop of `findOptimalCompression`
(src/index.js) and the `processFile` loops of the `part_00x` variants. -/
def linearDescent (accept : Int → Bool) (qmin : Int) (step : Nat) (qmax : Int) : Option Int :=
  searchGo accept step qmin (qmax + 1 - qmin).toNat qmax

/-- The ascending loop: probe qualities from `q` upward by `step` while
`q ≤ qmax`, returning the first accepted quality. -/
def ascendGo (accept : Int → Bool) (step : Nat) (qmax : Int) : Nat → Int → Option Int
  | 0, _ => none
  | n + 1, q =>
    if q ≤ qmax then
      if accept q then some q else ascendGo accept step qmax n (q + step)
    else none

/-- Ascending search as in the fallback loop of `findOptimalCompression`. -/
def ascendSearch (accept : Int → Bool) (qmax : Int) (step : Nat) (qstart : Int) : Option Int :=
  ascendGo accept step qmax (qmax + 1 - qstart).toNat qstart

/-! ## src/index.js : `findOptimalCompression` -/

/-- Primary acceptance test of `findOptimalCompression`:
`fileSize <= maxSize * (1 + tolerance) && currentSSIM >= minSSIM`. -/
def primaryAccept (enc : Int → Nat) (sim : Int → ℚ) (maxSize : Nat)
    (minSSIM tol : ℚ) (q : Int) : Bool :=
  decide ((enc q : ℚ) ≤ (maxSize : ℚ) * (1 + tol)) && decide (minSSIM ≤ sim q)

/-- Fallback acceptance test of `findOptimalCompression`:
`fallbackFileSize <= maxSize || fallbackSSIM >= minSSIM` (note: no
tolerance on the size here, and a disjunction). -/
def fallbackAccept (enc : Int → Nat) (sim : Int → ℚ) (maxSize : Nat)
    (minSSIM : ℚ) (q : Int) : Bool :=
  decide (enc q ≤ maxSize) || decide (minSSIM ≤ sim q)

/-- One trial per listed quality: write the temp file for `q` (modelled
by pushing `q` on the temp list), then either rename it to the output
(accept: the temp entry is erased, the loop stops) or unlink it (reject:
the temp entry is erased, the loop continues).  Returns the accepted
quality (if any), the list of qualities encoded, and the temp files
still present afterwards. -/
def trialLoop (accept : Int → Bool) : List Int → Option Int × List Int × List Int
  | [] => (none, [], [])
  | q :: rest =>
    if accept q then (some q, [q], ([q].erase q))
    else
      let r := trialLoop accept rest
      (r.1, q :: r.2.1, ([q].erase q) ++ r.2.2)

/-- Observable outcome of one `findOptimalCompression` call together
with the caller `processFilesConcurrently`, which only collects the
returned value and performs no further file operation. -/
structure IndexOut where
  result : Option (Int × Nat)
  output : Option FinalOut
  encodes : List Int
  temps : List Int
deriving DecidableEq, Repr

/-- `findOptimalCompression(inputPath, outputPath, maxSize, minSSIM,
[qmin, qmax], tolerance)` from src/index.js with `step = 10`: a primary
descending pass gated on the size-AND-similarity conjunction, then on
failure a fallback ascending pass from `qmin + step/2` in increments of
`step/2 = 5` gated on the size-OR-similarity disjunction.  When both
passes fail the function returns `null` and the caller leaves nothing at
the destination path. -/
def findOptimalCompression (enc : Int → Nat) (sim : Int → ℚ) (maxSize : Nat)
    (minSSIM : ℚ) (qmin qmax : Int) (tol : ℚ) : IndexOut :=
  let prim := trialLoop (primaryAccept enc sim maxSize minSSIM tol)
      (descendProbes qmin 10 qmax)
  match prim.1 with
  | some q =>
      { result := some (q, enc q), output := some (.encoded q (enc q)),
        encodes := prim.2.1, temps := prim.2.2 }
  | none =>
      let fb := trialLoop (fallbackAccept enc sim maxSize minSSIM)
          (ascendProbes qmax 5 (qmin + 5))
      match fb.1 with
      | some q =>
          { result := some (q, enc q), output := some (.encoded q (enc q)),
            encodes := prim.2.1 ++ fb.2.1, temps := prim.2.2 ++ fb.2.2 }
      | none =>
          { result := none, output := none,
            encodes := prim.2.1 ++ fb.2.1, temps := prim.2.2 ++ fb.2.2 }

/-! ## part_001 : `processFile` (logging variant with try/catch) -/

/-- The qualities visited by `while (quality > 0)` starting at 90 with
step 10: exactly 90, 80, ..., 10. -/
def chainFrom90 : List Int := descendProbes 1 10 90

/-- Exit status of the part_001 compression loop: a trial was accepted
(rename to output), the loop ran `quality` down to 0, or an encode threw
(caught by the surrounding try/catch, which aborts the loop). -/
inductive Exit001 where
  | accepted : Int → Nat → Exit001
  | exhausted : Exit001
  | errored : Int → Exit001
deriving DecidableEq, Repr

/-- The part_001 `while (quality > 0 && !success)` loop over its visited
qualities.  Each iteration encodes to a temp file; on success the temp
is renamed to the output, otherwise unlinked.  A failing encode raises,
leaving no temp.  Returns the exit status, the qualities encoded, and
the temps still present. -/
def loop001 (enc : Int → Option Nat) (maxSize : Nat) :
    List Int → Exit001 × List Int × List Int
  | [] => (.exhausted, [], [])
  | q :: rest =>
    match enc q with
    | none => (.errored q, [q], [])
    | some s =>
      if s ≤ maxSize then (.accepted q s, [q], ([q].erase q))
      else
        let r := loop001 enc maxSize rest
        (r.1, q :: r.2.1, ([q].erase q) ++ r.2.2)

/-- Observable outcome of one part_001 `processFile` call: destination
content, encode calls, remaining temps, and the per-call increments of
the `summaryStats` counters. -/
structure Out001 where
  output : Option FinalOut
  encodes : List Int
  temps : List Int
  errors : Nat
  compressed : Nat
  copied : Nat
deriving DecidableEq, Repr

/-- `processFile(inputPath, outputPath, maxSize)` from part_001.  Files
with `size < maxSize` are copied unchanged.  Otherwise the descending
loop runs inside a try/catch; afterwards `if (quality === 0 && !success)`
copies the original.  An encode error increments `errors` and, since the
quality at the error is in 90..10 (never 0), leaves no output file. -/
def processFile001 (enc : Int → Option Nat) (size maxSize : Nat) : Out001 :=
  if size < maxSize then
    { output := some .copy, encodes := [], temps := [],
      errors := 0, compressed := 0, copied := 1 }
  else
    match loop001 enc maxSize chainFrom90 with
    | (.accepted q s, cs, ts) =>
        { output := some (.encoded q s), encodes := cs, temps := ts,
          errors := 0, compressed := 1, copied := 0 }
    | (.exhausted, cs, ts) =>
        { output := some .copy, encodes := cs, temps := ts,
          errors := 0, compressed := 0, copied := 0 }
    | (.errored _, cs, ts) =>
        { output := none, encodes := cs, temps := ts,
          errors := 1, compressed := 0, copied := 0 }

/-! ## part_002 / part_003 : `processFile` (no per-file try/catch)

These two variants have no per-file catch, so we model them with a total
encoder (an encode exception would propagate out of `processFile`).  The
loop condition is `while (quality > 0 && compressedSize > maxSize)` with
`compressedSize` initialised to the input size; on a successful trial
the temp is renamed and the loop ends (part_002 `break`s, part_003 falls
out through the size condition — same behaviour). -/

/-- The part_002/part_003 loop over its visited qualities; after an
unlink the measured size is above `maxSize`, so the loop continues
exactly until a trial fits.  Returns the accepted (quality, size) if
any, plus the encode calls and remaining temps. -/
def loop002 (enc : Int → Nat) (maxSize : Nat) :
    List Int → Option (Int × Nat) × List Int × List Int
  | [] => (none, [], [])
  | q :: rest =>
    if maxSize < enc q then
      let r := loop002 enc maxSize rest
      (r.1, q :: r.2.1, ([q].erase q) ++ r.2.2)
    else (some (q, enc q), [q], ([q].erase q))

/-- Observable outcome of one part_002 `processFile` call. -/
structure Out002 where
  output : Option FinalOut
  encodes : List Int
  temps : List Int
  errors : Nat
  compressed : Nat
  copied : Nat
deriving DecidableEq, Repr

/-- `processFile(inputPath, outputPath, maxSize)` from part_002.  Files
with `size < maxSize` are copied.  When `size = maxSize` the loop
condition `compressedSize > maxSize` is false on entry, the quality
stays 90, the `if (quality === 0)` fallback does not fire, and nothing
is written to the destination.  When the loop exhausts all qualities the
quality is 0, the original is copied and `summaryStats.errors` is
incremented (the summary labels this counter Errors/Unable to
Compress). -/
def processFile002 (enc : Int → Nat) (size maxSize : Nat) : Out002 :=
  if size < maxSize then
    { output := some .copy, encodes := [], temps := [],
      errors := 0, compressed := 0, copied := 1 }
  else if size ≤ maxSize then
    { output := none, encodes := [], temps := [],
      errors := 0, compressed := 0, copied := 0 }
  else
    match loop002 enc maxSize chainFrom90 with
    | (some (q, s), cs, ts) =>
        { output := some (.encoded q s), encodes := cs, temps := ts,
          errors := 0, compressed := 1, copied := 0 }
    | (none, cs, ts) =>
        { output := some .copy, encodes := cs, temps := ts,
          errors := 1, compressed := 0, copied := 0 }

/-- Observable outcome of one part_003 `processFile` call (no counters
in this variant). -/
structure Out003 where
  output : Option FinalOut
  encodes : List Int
  temps : List Int
deriving DecidableEq, Repr

/-- `processFile(inputPath, outputPath, maxSize)` from part_003: same
control flow as part_002 without the summary counters. -/
def processFile003 (enc : Int → Nat) (size maxSize : Nat) : Out003 :=
  if size < maxSize then { output := some .copy, encodes := [], temps := [] }
  else if size ≤ maxSize then { output := none, encodes := [], temps := [] }
  else
    match loop002 enc maxSize chainFrom90 with
    | (some (q, s), cs, ts) => { output := some (.encoded q s), encodes := cs, temps := ts }
    | (none, cs, ts) => { output := some .copy, encodes := cs, temps := ts }

/-! ## part_000 : `processImage` -/

/-- The part_000 compression loop `while (!processed)`: encode at the
current quality; when the data is under `2 * 1024 * 1024` bytes or the
quality equals 1, write it and stop; otherwise decrease the quality
by 5.  A rejected promise only logs the error, so a failing encode
leaves both `quality` and `processed` unchanged and the loop retries the
same state forever; the fuel argument counts loop iterations, and
`none` means the loop has not terminated within that many iterations. -/
def loop000 (enc : Int → Option Nat) : Nat → Int → Option (Int × Nat)
  | 0, _ => none
  | n + 1, q =>
    match enc q with
    | none => loop000 enc n q
    | some s =>
      if s < 2 * 1024 * 1024 ∨ q = 1 then some (q, s) else loop000 enc n (q - 5)

/-- `processImage(sourcePath, targetPath)` from part_000, run for at
most `fuel` loop iterations: inputs under 2 MB are copied; otherwise the
loop starts at quality 100 and the accepted data is written to the
target.  `none` means no output was produced within `fuel` iterations. -/
def processImage000 (enc : Int → Option Nat) (size : Nat) (fuel : Nat) : Option FinalOut :=
  if size < 2 * 1024 * 1024 then some .copy
  else
    match loop000 enc fuel 100 with
    | some (q, s) => some (.encoded q s)
    | none => none

/-! ## Binary search over quality (spec §4.1, policy 2) -/

/-- Modelled from the spec: no binary-search policy appears in the
source files; spec §4.1 (policy 2) prescribes maintaining `[low, high]`,
probing `mid = floor((low+high)/2)`, recording `mid` as the candidate
and setting `low = mid+1` when the size is within the ceiling, else
`high = mid-1`, and returning the recorded candidate with the largest
quality.  Fuel-driven; the interval shrinks every iteration, so fuel
`(high + 1 - low).toNat` always suffices. -/
def binGo (accept : Int → Bool) : Nat → Int → Int → Option Int → Option Int
  | 0, _, _, best => best
  | n + 1, low, high, best =>
    if low ≤ high then
      let mid := (low + high) / 2
      if accept mid then binGo accept n (mid + 1) high (some mid)
      else binGo accept n low (mid - 1) best
    else best

/-- Modelled from the spec: binary-search policy of §4.1 over the
bounds `[qmin, qmax]`. -/
def binarySearch (accept : Int → Bool) (qmin qmax : Int) : Option Int :=
  binGo accept (qmax + 1 - qmin).toNat qmin qmax none

/-! ## Helper lemmas: `find?` on sorted lists -/

theorem find?_pairwise_gt (p : Int → Bool) :
    ∀ l : List Int, l.Pairwise (fun a b => b < a) → ∀ r : Int,
      (l.find? p = some r ↔ r ∈ l ∧ p r = true ∧ ∀ x ∈ l, r < x → p x = false) := by
  intro l
  induction l with
  | nil => intro _ r; simp
  | cons a t ih =>
    intro hp r
    rcases List.pairwise_cons.mp hp with ⟨ha, ht⟩
    by_cases hpa : p a = true
    · rw [List.find?_cons_of_pos _ hpa]
      constructor
      · rintro h
        injection h with h
        subst h
        refine ⟨List.mem_cons_self _ _, hpa, ?_⟩
        intro x hx hrx
        rcases List.mem_cons.mp hx with rfl | hx
        · exact absurd hrx (lt_irrefl _)
        · exact absurd hrx (by have := ha x hx; omega)
      · rintro ⟨hmem, hpr, hmax⟩
        rcases List.mem_cons.mp hmem with rfl | hmem
        · rfl
        · have hra : r < a := ha r hmem
          have hfa : p a = false := hmax a (List.mem_cons_self a t) hra
          rw [hpa] at hfa
          cases hfa
    · have hpa₀ : ¬ p a = true := hpa
      rw [List.find?_cons_of_neg _ hpa₀]
      rw [ih ht r]
      constructor
      · rintro ⟨hmem, hpr, hmax⟩
        refine ⟨List.mem_cons_of_mem a hmem, hpr, ?_⟩
        intro x hx hrx
        rcases List.mem_cons.mp hx with rfl | hx
        · exact Bool.not_eq_true _ ▸ (by revert hpa₀; cases p x <;> simp)
        · exact hmax x hx hrx
      · rintro ⟨hmem, hpr, hmax⟩
        rcases List.mem_cons.mp hmem with rfl | hmem
        · rw [hpr] at hpa₀; cases hpa₀ rfl
        · exact ⟨hmem, hpr, fun x hx hrx => hmax x (List.mem_cons_of_mem a hx) hrx⟩

theorem find?_pairwise_lt (p : Int → Bool) :
    ∀ l : List Int, l.Pairwise (fun a b => a < b) → ∀ r : Int,
      (l.find? p = some r ↔ r ∈ l ∧ p r = true ∧ ∀ x ∈ l, x < r → p x = false) := by
  intro l
  induction l with
  | nil => intro _ r; simp
  | cons a t ih =>
    intro hp r
    rcases List.pairwise_cons.mp hp with ⟨ha, ht⟩
    by_cases hpa : p a = true
    · rw [List.find?_cons_of_pos _ hpa]
      constructor
      · rintro h
        injection h with h
        subst h
        refine ⟨List.mem_cons_self _ _, hpa, ?_⟩
        intro x hx hrx
        rcases List.mem_cons.mp hx with rfl | hx
        · exact absurd hrx (lt_irrefl _)
        · exact absurd hrx (by have := ha x hx; omega)
      · rintro ⟨hmem, hpr, hmax⟩
        rcases List.mem_cons.mp hmem with rfl | hmem
        · rfl
        · have hra : a < r := ha r hmem
          have hfa : p a = false := hmax a (List.mem_cons_self a t) hra
          rw [hpa] at hfa
          cases hfa
    · have hpa₀ : ¬ p a = true := hpa
      rw [List.find?_cons_of_neg _ hpa₀]
      rw [ih ht r]
      constructor
      · rintro ⟨hmem, hpr, hmax⟩
        refine ⟨List.mem_cons_of_mem a hmem, hpr, ?_⟩
        intro x hx hrx
        rcases List.mem_cons.mp hx with rfl | hx
        · revert hpa₀; cases p x <;> simp
        · exact hmax x hx hrx
      · rintro ⟨hmem, hpr, hmax⟩
        rcases List.mem_cons.mp hmem with rfl | hmem
        · rw [hpr] at hpa₀; cases hpa₀ rfl
        · exact ⟨hmem, hpr, fun x hx hrx => hmax x (List.mem_cons_of_mem a hx) hrx⟩

/-! ## Helper lemmas: probe lists -/

theorem descendProbesGo_bounds (step : Nat) (qmin : Int) :
    ∀ (n : Nat) (q x : Int), x ∈ descendProbesGo step qmin n q → qmin ≤ x ∧ x ≤ q := by
  intro n
  induction n with
  | zero => intro q x hx; simp [descendProbesGo] at hx
  | succ n ih =>
    intro q x hx
    by_cases h : qmin ≤ q
    · simp only [descendProbesGo, if_pos h] at hx
      rcases List.mem_cons.mp hx with rfl | hx
      · exact ⟨h, le_refl x⟩
      · have := ih (q - step) x hx
        constructor
        · exact this.1
        · have hst : (0:Int) ≤ (step : Int) := by positivity
          omega
    · simp only [descendProbesGo, if_neg h] at hx
      cases hx

theorem descendProbesGo_pairwise (step : Nat) (hs : 1 ≤ step) (qmin : Int) :
    ∀ (n : Nat) (q : Int), (descendProbesGo step qmin n q).Pairwise (fun a b => b < a) := by
  intro n
  induction n with
  | zero => intro q; simp [descendProbesGo]
  | succ n ih =>
    intro q
    by_cases h : qmin ≤ q
    · simp only [descendProbesGo, if_pos h]
      refine List.pairwise_cons.mpr ⟨?_, ih (q - step)⟩
      intro x hx
      have := (descendProbesGo_bounds step qmin n (q - step) x hx).2
      have hst : (1:Int) ≤ (step : Int) := by exact_mod_cast hs
      omega
    · simp only [descendProbesGo, if_neg h]
      exact List.Pairwise.nil

theorem descendProbesGo_mem (step : Nat) (hs : 1 ≤ step) (qmin : Int) :
    ∀ (n : Nat) (q : Int), (q + 1 - qmin).toNat ≤ n → ∀ x : Int,
      (x ∈ descendProbesGo step qmin n q ↔
        ∃ k : Nat, x = q - (k : Int) * (step : Int) ∧ qmin ≤ x) := by
  intro n
  induction n with
  | zero =>
    intro q hn x
    simp only [descendProbesGo, List.not_mem_nil, false_iff]
    rintro ⟨k, hk, hx⟩
    have hks : (0:Int) ≤ (k : Int) * (step : Int) := by positivity
    omega
  | succ n ih =>
    intro q hn x
    by_cases h : qmin ≤ q
    · simp only [descendProbesGo, if_pos h, List.mem_cons]
      have hst : (1:Int) ≤ (step : Int) := by exact_mod_cast hs
      have hrec := ih (q - step) (by omega) x
      rw [hrec]
      constructor
      · rintro (rfl | ⟨k, hk, hx⟩)
        · exact ⟨0, by simp, h⟩
        · refine ⟨k + 1, ?_, hx⟩
          have hc : ((k + 1 : Nat) : Int) * (step : Int) = (k : Int) * (step : Int) + step := by
            push_cast
            ring
          omega
      · rintro ⟨k, hk, hx⟩
        cases k with
        | zero => left; simpa using hk
        | succ k =>
          right
          refine ⟨k, ?_, hx⟩
          have hc : ((k + 1 : Nat) : Int) * (step : Int) = (k : Int) * (step : Int) + step := by
            push_cast
            ring
          omega
    · simp only [descendProbesGo, if_neg h, List.not_mem_nil, false_iff]
      rintro ⟨k, hk, hx⟩
      have hks : (0:Int) ≤ (k : Int) * (step : Int) := by positivity
      omega

theorem ascendProbesGo_bounds (step : Nat) (qmax : Int) :
    ∀ (n : Nat) (q x : Int), x ∈ ascendProbesGo step qmax n q → q ≤ x ∧ x ≤ qmax := by
  intro n
  induction n with
  | zero => intro q x hx; simp [ascendProbesGo] at hx
  | succ n ih =>
    intro q x hx
    by_cases h : q ≤ qmax
    · simp only [ascendProbesGo, if_pos h] at hx
      rcases List.mem_cons.mp hx with rfl | hx
      · exact ⟨le_refl x, h⟩
      · have := ih (q + step) x hx
        constructor
        · have hst : (0:Int) ≤ (step : Int) := by positivity
          omega
        · exact this.2
    · simp only [ascendProbesGo, if_neg h] at hx
      cases hx

theorem ascendProbesGo_pairwise (step : Nat) (hs : 1 ≤ step) (qmax : Int) :
    ∀ (n : Nat) (q : Int), (ascendProbesGo step qmax n q).Pairwise (fun a b => a < b) := by
  intro n
  induction n with
  | zero => intro q; simp [ascendProbesGo]
  | succ n ih =>
    intro q
    by_cases h : q ≤ qmax
    · simp only [ascendProbesGo, if_pos h]
      refine List.pairwise_cons.mpr ⟨?_, ih (q + step)⟩
      intro x hx
      have := (ascendProbesGo_bounds step qmax n (q + step) x hx).1
      have hst : (1:Int) ≤ (step : Int) := by exact_mod_cast hs
      omega
    · simp only [ascendProbesGo, if_neg h]
      exact List.Pairwise.nil

theorem ascendProbesGo_mem (step : Nat) (hs : 1 ≤ step) (qmax : Int) :
    ∀ (n : Nat) (q : Int), (qmax + 1 - q).toNat ≤ n → ∀ x : Int,
      (x ∈ ascendProbesGo step qmax n q ↔
        ∃ k : Nat, x = q + (k : Int) * (step : Int) ∧ x ≤ qmax) := by
  intro n
  induction n with
  | zero =>
    intro q hn x
    simp only [ascendProbesGo, List.not_mem_nil, false_iff]
    rintro ⟨k, hk, hx⟩
    have hks : (0:Int) ≤ (k : Int) * (step : Int) := by positivity
    omega
  | succ n ih =>
    intro q hn x
    by_cases h : q ≤ qmax
    · simp only [ascendProbesGo, if_pos h, List.mem_cons]
      have hst : (1:Int) ≤ (step : Int) := by exact_mod_cast hs
      have hrec := ih (q + step) (by omega) x
      rw [hrec]
      constructor
      · rintro (rfl | ⟨k, hk, hx⟩)
        · exact ⟨0, by simp, h⟩
        · refine ⟨k + 1, ?_, hx⟩
          have hc : ((k + 1 : Nat) : Int) * (step : Int) = (k : Int) * (step : Int) + step := by
            push_cast
            ring
          omega
      · rintro ⟨k, hk, hx⟩
        cases k with
        | zero => left; simpa using hk
        | succ k =>
          right
          refine ⟨k, ?_, hx⟩
          have hc : ((k + 1 : Nat) : Int) * (step : Int) = (k : Int) * (step : Int) + step := by
            push_cast
            ring
          omega
    · simp only [ascendProbesGo, if_neg h, List.not_mem_nil, false_iff]
      rintro ⟨k, hk, hx⟩
      have hks : (0:Int) ≤ (k : Int) * (step : Int) := by positivity
      omega

/-! ## Helper lemmas: loops as `find?` over their probe lists -/

theorem searchGo_eq_find (accept : Int → Bool) (step : Nat) (qmin : Int) :
    ∀ (n : Nat) (q : Int),
      searchGo accept step qmin n q = (descendProbesGo step qmin n q).find? accept := by
  intro n
  induction n with
  | zero => intro q; simp [searchGo, descendProbesGo]
  | succ n ih =>
    intro q
    by_cases h : qmin ≤ q
    · by_cases ha : accept q = true
      · simp only [searchGo, descendProbesGo, if_pos h, if_pos ha,
          List.find?_cons_of_pos _ ha]
      · simp only [searchGo, descendProbesGo, if_pos h, if_neg ha]
        rw [List.find?_cons_of_neg _ ha]
        exact ih (q - step)
    · simp [searchGo, descendProbesGo, if_neg h]

theorem ascendGo_eq_find (accept : Int → Bool) (step : Nat) (qmax : Int) :
    ∀ (n : Nat) (q : Int),
      ascendGo accept step qmax n q = (ascendProbesGo step qmax n q).find? accept := by
  intro n
  induction n with
  | zero => intro q; simp [ascendGo, ascendProbesGo]
  | succ n ih =>
    intro q
    by_cases h : q ≤ qmax
    · by_cases ha : accept q = true
      · simp only [ascendGo, ascendProbesGo, if_pos h, if_pos ha,
          List.find?_cons_of_pos _ ha]
      · simp only [ascendGo, ascendProbesGo, if_pos h, if_neg ha]
        rw [List.find?_cons_of_neg _ ha]
        exact ih (q + step)
    · simp [ascendGo, ascendProbesGo, if_neg h]

theorem trialLoop_fst (accept : Int → Bool) :
    ∀ l : List Int, (trialLoop accept l).1 = l.find? accept := by
  intro l
  induction l with
  | nil => simp [trialLoop]
  | cons a t ih =>
    by_cases ha : accept a = true
    · simp [trialLoop, ha, List.find?_cons_of_pos _ ha]
    · rw [List.find?_cons_of_neg _ ha]
      simp only [trialLoop, Bool.not_eq_true] at ha ⊢
      rw [ha]
      simpa using ih

theorem trialLoop_temps (accept : Int → Bool) :
    ∀ l : List Int, (trialLoop accept l).2.2 = [] := by
  intro l
  induction l with
  | nil => simp [trialLoop]
  | cons a t ih =>
    by_cases ha : accept a = true
    · simp [trialLoop, ha]
    · simp only [trialLoop, Bool.not_eq_true] at ha ⊢
      rw [ha]
      simpa using ih

/-! ## Helper lemmas: the part_001 loop -/

theorem loop001_temps (enc : Int → Option Nat) (maxSize : Nat) :
    ∀ l : List Int, (loop001 enc maxSize l).2.2 = [] := by
  intro l
  induction l with
  | nil => simp [loop001]
  | cons a t ih =>
    cases ha : enc a with
    | none => simp [loop001, ha]
    | some s =>
      by_cases hs : s ≤ maxSize
      · simp [loop001, ha, hs]
      · simp only [loop001, ha, if_neg hs]
        simpa using ih

theorem loop001_calls_subset (enc : Int → Option Nat) (maxSize : Nat) :
    ∀ (l : List Int) (x : Int), x ∈ (loop001 enc maxSize l).2.1 → x ∈ l := by
  intro l
  induction l with
  | nil => intro x hx; simp [loop001] at hx
  | cons a t ih =>
    intro x hx
    cases ha : enc a with
    | none =>
      simp [loop001, ha] at hx
      simp [hx]
    | some s =>
      by_cases hs : s ≤ maxSize
      · simp [loop001, ha, hs] at hx
        simp [hx]
      · simp only [loop001, ha, if_neg hs, List.mem_cons] at hx
        rcases hx with rfl | hx
        · exact List.mem_cons_self _ _
        · exact List.mem_cons_of_mem a (ih x hx)

theorem loop001_errored_iff (enc : Int → Option Nat) (maxSize : Nat) :
    ∀ l : List Int,
      (∃ q, (loop001 enc maxSize l).1 = Exit001.errored q) ↔
        ∃ q ∈ (loop001 enc maxSize l).2.1, enc q = none := by
  intro l
  induction l with
  | nil => simp [loop001]
  | cons a t ih =>
    cases ha : enc a with
    | none =>
      simp [loop001, ha]
    | some s =>
      by_cases hs : s ≤ maxSize
      · simp [loop001, ha, hs]
      · simp only [loop001, ha, if_neg hs]
        simpa [ha] using ih

theorem loop001_total_fst (f : Int → Nat) (maxSize : Nat) :
    ∀ l : List Int,
      (loop001 (fun q => some (f q)) maxSize l).1 =
        match l.find? (fun q => decide (f q ≤ maxSize)) with
        | some q => Exit001.accepted q (f q)
        | none => Exit001.exhausted := by
  intro l
  induction l with
  | nil => simp [loop001]
  | cons a t ih =>
    by_cases hs : f a ≤ maxSize
    · rw [List.find?_cons_of_pos _ (by simpa using hs)]
      simp [loop001, hs]
    · rw [List.find?_cons_of_neg _ (by simpa using hs)]
      simp only [loop001, if_neg hs]
      exact ih

theorem loop001_all_big (enc : Int → Option Nat) (maxSize : Nat) :
    ∀ l : List Int, (∀ x ∈ l, ∃ s, enc x = some s ∧ maxSize < s) →
      loop001 enc maxSize l = (Exit001.exhausted, l, []) := by
  intro l
  induction l with
  | nil => intro _; simp [loop001]
  | cons a t ih =>
    intro hbig
    rcases hbig a (List.mem_cons_self _ _) with ⟨s, ha, hlt⟩
    have hs : ¬ s ≤ maxSize := by omega
    simp only [loop001, ha, if_neg hs, ih (fun x hx => hbig x (List.mem_cons_of_mem a hx))]
    simp

/-! ## Helper lemmas: the part_002 / part_003 loop -/

theorem loop002_temps (enc : Int → Nat) (maxSize : Nat) :
    ∀ l : List Int, (loop002 enc maxSize l).2.2 = [] := by
  intro l
  induction l with
  | nil => simp [loop002]
  | cons a t ih =>
    by_cases hs : maxSize < enc a
    · simp only [loop002, if_pos hs]
      simpa using ih
    · simp [loop002, if_neg hs]

theorem loop002_calls_subset (enc : Int → Nat) (maxSize : Nat) :
    ∀ (l : List Int) (x : Int), x ∈ (loop002 enc maxSize l).2.1 → x ∈ l := by
  intro l
  induction l with
  | nil => intro x hx; simp [loop002] at hx
  | cons a t ih =>
    intro x hx
    by_cases hs : maxSize < enc a
    · simp only [loop002, if_pos hs, List.mem_cons] at hx
      rcases hx with rfl | hx
      · exact List.mem_cons_self _ _
      · exact List.mem_cons_of_mem a (ih x hx)
    · simp [loop002, if_neg hs] at hx
      simp [hx]

theorem loop002_fst (enc : Int → Nat) (maxSize : Nat) :
    ∀ l : List Int,
      (loop002 enc maxSize l).1 =
        (l.find? (fun q => decide (enc q ≤ maxSize))).map (fun q => (q, enc q)) := by
  intro l
  induction l with
  | nil => simp [loop002]
  | cons a t ih =>
    by_cases hs : maxSize < enc a
    · rw [List.find?_cons_of_neg _ (by simpa using hs)]
      simp only [loop002, if_pos hs]
      simpa using ih
    · rw [List.find?_cons_of_pos _ (by simp; omega)]
      simp [loop002, if_neg hs]

theorem loop002_all_big (enc : Int → Nat) (maxSize : Nat) :
    ∀ l : List Int, (∀ x ∈ l, maxSize < enc x) →
      loop002 enc maxSize l = (none, l, []) := by
  intro l
  induction l with
  | nil => intro _; simp [loop002]
  | cons a t ih =>
    intro hbig
    have hs : maxSize < enc a := hbig a (List.mem_cons_self _ _)
    simp only [loop002, if_pos hs, ih (fun x hx => hbig x (List.mem_cons_of_mem a hx))]
    simp

/-! ## Helper lemmas: the part_000 loop -/

theorem loop000_terminates (enc : Int → Option Nat) :
    ∀ (k : Nat) (q : Int),
      (∃ s, enc (q - 5 * k) = some s ∧ s < 2 * 1024 * 1024) →
      (∀ j : Nat, j < k → ∃ s, enc (q - 5 * j) = some s ∧ 2 * 1024 * 1024 ≤ s) →
      ∃ (n : Nat) (r : Int × Nat), loop000 enc n q = some r := by
  intro k
  induction k with
  | zero =>
    intro q hsmall _
    rcases hsmall with ⟨s, hq, hlt⟩
    refine ⟨1, (q, s), ?_⟩
    simp only [loop000]
    rw [show q - 5 * (0:Nat) = q by push_cast; ring] at hq
    rw [hq]
    simp [hlt]
  | succ k ih =>
    intro q hsmall hbig
    rcases hbig 0 (Nat.succ_pos k) with ⟨s0, hq0, hge⟩
    rw [show q - 5 * (0:Nat) = q by push_cast; ring] at hq0
    by_cases hq1 : q = 1
    · refine ⟨1, (q, s0), ?_⟩
      simp only [loop000]
      rw [hq0]
      simp [hq1]
    · have hsmall₂ : ∃ s, enc (q - 5 - 5 * k) = some s ∧ s < 2 * 1024 * 1024 := by
        rcases hsmall with ⟨s, hk, hlt⟩
        refine ⟨s, ?_, hlt⟩
        rw [show q - 5 - 5 * (k:Int) = q - 5 * ((k+1 : Nat) : Int) by push_cast; ring]
        exact hk
      have hbig₂ : ∀ j : Nat, j < k → ∃ s, enc (q - 5 - 5 * j) = some s ∧ 2 * 1024 * 1024 ≤ s := by
        intro j hj
        rcases hbig (j + 1) (by omega) with ⟨s, hjs, hges⟩
        refine ⟨s, ?_, hges⟩
        rw [show q - 5 - 5 * (j:Int) = q - 5 * ((j+1 : Nat) : Int) by push_cast; ring]
        exact hjs
      rcases ih (q - 5) hsmall₂ hbig₂ with ⟨n, r, hn⟩
      refine ⟨n + 1, r, ?_⟩
      simp only [loop000]
      rw [hq0]
      have hcond : ¬ (s0 < 2 * 1024 * 1024 ∨ q = 1) := by
        push_neg
        exact ⟨by omega, hq1⟩
      simp only [if_neg hcond]
      exact hn

theorem loop000_chain (enc : Int → Option Nat) :
    ∀ (n : Nat) (q : Int) (r : Int × Nat), (5:Int) ∣ q → loop000 enc n q = some r →
      ∃ k : Nat,
        (∃ s, enc (q - 5 * k) = some s ∧ s < 2 * 1024 * 1024) ∧
        (∀ j : Nat, j < k → ∃ s, enc (q - 5 * j) = some s ∧ 2 * 1024 * 1024 ≤ s) := by
  intro n
  induction n with
  | zero => intro q r _ h; simp [loop000] at h
  | succ n ih =>
    intro q r hdvd h
    cases ha : enc q with
    | none =>
      simp only [loop000, ha] at h
      exact ih q r hdvd h
    | some s =>
      simp only [loop000, ha] at h
      by_cases hcond : s < 2 * 1024 * 1024 ∨ q = 1
      · have hq1 : ¬ q = 1 := by omega
        have hs : s < 2 * 1024 * 1024 := by tauto
        refine ⟨0, ⟨s, ?_, hs⟩, by omega⟩
        rw [show q - 5 * (0:Nat) = q by push_cast; ring]
        exact ha
      · rw [if_neg hcond] at h
        push_neg at hcond
        rcases ih (q - 5) r (by omega) h with ⟨k, hsmall, hbig⟩
        refine ⟨k + 1, ?_, ?_⟩
        · rcases hsmall with ⟨s2, hk, hlt⟩
          refine ⟨s2, ?_, hlt⟩
          rw [show q - 5 * ((k+1 : Nat) : Int) = q - 5 - 5 * (k:Int) by push_cast; ring]
          exact hk
        · intro j hj
          cases j with
          | zero =>
            refine ⟨s, ?_, by omega⟩
            rw [show q - 5 * ((0 : Nat) : Int) = q by push_cast; ring]
            exact ha
          | succ j =>
            rcases hbig j (by omega) with ⟨s2, hjs, hges⟩
            refine ⟨s2, ?_, hges⟩
            rw [show q - 5 * ((j+1 : Nat) : Int) = q - 5 - 5 * (j:Int) by push_cast; ring]
            exact hjs

theorem loop000_exit_quality (enc : Int → Option Nat) :
    ∀ (n : Nat) (q : Int) (r : Int × Nat), loop000 enc n q = some r →
      ∃ k : Nat, r.1 = q - 5 * k := by
  intro n
  induction n with
  | zero => intro q r h; simp [loop000] at h
  | succ n ih =>
    intro q r h
    cases ha : enc q with
    | none =>
      simp only [loop000, ha] at h
      exact ih q r h
    | some s =>
      simp only [loop000, ha] at h
      by_cases hcond : s < 2 * 1024 * 1024 ∨ q = 1
      · rw [if_pos hcond] at h
        injection h with h
        refine ⟨0, ?_⟩
        rw [← h]
        push_cast
        ring
      · rw [if_neg hcond] at h
        rcases ih (q - 5) r h with ⟨k, hk⟩
        refine ⟨k + 1, ?_⟩
        rw [hk]
        push_cast
        ring

/-! ## Helper lemmas: binary search (spec policy 2) -/

theorem binGo_correct (accept : Int → Bool)
    (hdc : ∀ a b : Int, a ≤ b → accept b = true → accept a = true) :
    ∀ (n : Nat) (low high : Int) (best : Option Int),
      (high + 1 - low).toNat ≤ n →
      (∀ b, best = some b → accept b = true ∧ b + 1 = low ∧ low ≤ high + 1) →
      ( (binGo accept n low high best = none → best = none ∧
          ∀ q : Int, low ≤ q → q ≤ high → accept q = false)
      ∧ (∀ r : Int, binGo accept n low high best = some r →
          accept r = true ∧ r ≤ high ∧ (low ≤ r ∨ best = some r) ∧
          ∀ q : Int, low ≤ q → q ≤ high → accept q = true → q ≤ r) ) := by
  intro n
  induction n with
  | zero =>
    intro low high best hfuel hbest
    have hlh : high < low := by omega
    constructor
    · intro hnone
      refine ⟨by simpa [binGo] using hnone, fun q hq1 hq2 => absurd (le_trans hq1 hq2) (by omega)⟩
    · intro r hr
      simp only [binGo] at hr
      rcases hbest r hr with ⟨hacc, hr1, hr2⟩
      exact ⟨hacc, by omega, Or.inr hr, fun q hq1 hq2 _ => absurd (le_trans hq1 hq2) (by omega)⟩
  | succ n ih =>
    intro low high best hfuel hbest
    by_cases hlh : low ≤ high
    · have hmid1 : low ≤ (low + high) / 2 := by omega
      have hmid2 : (low + high) / 2 ≤ high := by omega
      by_cases ha : accept ((low + high) / 2) = true
      · have hrec := ih ((low + high) / 2 + 1) high (some ((low + high) / 2))
          (by omega)
          (by rintro b hb; injection hb with hb; subst hb; exact ⟨ha, rfl, by omega⟩)
        constructor
        · intro hnone
          simp only [binGo, if_pos hlh, if_pos ha] at hnone
          rcases (hrec.1 hnone).1 with h
          cases h
        · intro r hr
          simp only [binGo, if_pos hlh, if_pos ha] at hr
          rcases hrec.2 r hr with ⟨hacc, hrh, hror, hmax⟩
          refine ⟨hacc, hrh, Or.inl ?_, ?_⟩
          · rcases hror with h | h
            · omega
            · injection h with h; omega
          · intro q hq1 hq2 hq3
            by_cases hqm : (low + high) / 2 + 1 ≤ q
            · exact hmax q hqm hq2 hq3
            · have hrge : (low + high) / 2 ≤ r := by
                rcases hror with h | h
                · omega
                · injection h with h; omega
              omega
      · have hrec := ih low ((low + high) / 2 - 1) best
          (by omega)
          (by rintro b hb; rcases hbest b hb with ⟨h1, h2, _⟩; exact ⟨h1, h2, by omega⟩)
        constructor
        · intro hnone
          simp only [binGo, if_pos hlh, if_neg ha] at hnone
          rcases hrec.1 hnone with ⟨hb, hfail⟩
          refine ⟨hb, fun q hq1 hq2 => ?_⟩
          by_cases hqm : q ≤ (low + high) / 2 - 1
          · exact hfail q hq1 hqm
          · cases hq : accept q with
            | false => rfl
            | true =>
              have := hdc ((low + high) / 2) q (by omega) hq
              rw [this] at ha
              cases ha rfl
        · intro r hr
          simp only [binGo, if_pos hlh, if_neg ha] at hr
          rcases hrec.2 r hr with ⟨hacc, hrh, hror, hmax⟩
          refine ⟨hacc, by omega, hror, fun q hq1 hq2 hq3 => ?_⟩
          by_cases hqm : q ≤ (low + high) / 2 - 1
          · exact hmax q hq1 hqm hq3
          · have := hdc ((low + high) / 2) q (by omega) hq3
            rw [this] at ha
            cases ha rfl
    · constructor
      · intro hnone
        simp only [binGo, if_neg hlh] at hnone
        exact ⟨hnone, fun q hq1 hq2 => absurd (le_trans hq1 hq2) (by omega)⟩
      · intro r hr
        simp only [binGo, if_neg hlh] at hr
        rcases hbest r hr with ⟨hacc, hr1, hr2⟩
        exact ⟨hacc, by omega, Or.inr hr, fun q hq1 hq2 _ => absurd (le_trans hq1 hq2) (by omega)⟩

theorem linearDescent_eq_find (accept : Int → Bool) (qmin : Int) (step : Nat) (qmax : Int) :
    linearDescent accept qmin step qmax = (descendProbes qmin step qmax).find? accept := by
  unfold linearDescent descendProbes
  exact searchGo_eq_find accept step qmin _ qmax

theorem ascendSearch_eq_find (accept : Int → Bool) (qmax : Int) (step : Nat) (qstart : Int) :
    ascendSearch accept qmax step qstart = (ascendProbes qmax step qstart).find? accept := by
  unfold ascendSearch ascendProbes
  exact ascendGo_eq_find accept step qmax _ qstart

theorem descendProbes_pairwise (qmin : Int) (step : Nat) (hs : 1 ≤ step) (q : Int) :
    (descendProbes qmin step q).Pairwise (fun a b => b < a) :=
  descendProbesGo_pairwise step hs qmin _ q

theorem descendProbes_mem (qmin : Int) (step : Nat) (hs : 1 ≤ step) (q x : Int) :
    x ∈ descendProbes qmin step q ↔
      ∃ k : Nat, x = q - (k : Int) * (step : Int) ∧ qmin ≤ x :=
  descendProbesGo_mem step hs qmin _ q (le_refl _) x

theorem descendProbes_bounds (qmin : Int) (step : Nat) (q x : Int) :
    x ∈ descendProbes qmin step q → qmin ≤ x ∧ x ≤ q :=
  descendProbesGo_bounds step qmin _ q x

theorem ascendProbes_pairwise (qmax : Int) (step : Nat) (hs : 1 ≤ step) (q : Int) :
    (ascendProbes qmax step q).Pairwise (fun a b => a < b) :=
  ascendProbesGo_pairwise step hs qmax _ q

theorem ascendProbes_mem (qmax : Int) (step : Nat) (hs : 1 ≤ step) (q x : Int) :
    x ∈ ascendProbes qmax step q ↔
      ∃ k : Nat, x = q + (k : Int) * (step : Int) ∧ x ≤ qmax :=
  ascendProbesGo_mem step hs qmax _ q (le_refl _) x

theorem ascendProbes_bounds (qmax : Int) (step : Nat) (q x : Int) :
    x ∈ ascendProbes qmax step q → q ≤ x ∧ x ≤ qmax :=
  ascendProbesGo_bounds step qmax _ q x

theorem binarySearch_correct (accept : Int → Bool)
    (hdc : ∀ a b : Int, a ≤ b → accept b = true → accept a = true) (qmin qmax : Int) :
    ( (binarySearch accept qmin qmax = none →
        ∀ q : Int, qmin ≤ q → q ≤ qmax → accept q = false)
    ∧ (∀ r : Int, binarySearch accept qmin qmax = some r →
        accept r = true ∧ qmin ≤ r ∧ r ≤ qmax ∧
        ∀ q : Int, qmin ≤ q → q ≤ qmax → accept q = true → q ≤ r) ) := by
  have h := binGo_correct accept hdc (qmax + 1 - qmin).toNat qmin qmax none
    (le_refl _) (by rintro b hb; cases hb)
  constructor
  · intro hnone
    exact (h.1 hnone).2
  · intro r hr
    rcases h.2 r hr with ⟨hacc, hrh, hror, hmax⟩
    rcases hror with hlow | hfalse
    · exact ⟨hacc, hlow, hrh, hmax⟩
    · cases hfalse

/-! ## Helper lemmas: evaluating the processFile variants -/

theorem processFile001_eval (f : Int → Nat) (size maxSize : Nat) (h : ¬ size < maxSize) :
    (processFile001 (fun x => some (f x)) size maxSize).output =
      (match chainFrom90.find? (fun x => decide (f x ≤ maxSize)) with
       | some q => some (FinalOut.encoded q (f q))
       | none => some FinalOut.copy) := by
  cases hf : chainFrom90.find? (fun x => decide (f x ≤ maxSize)) with
  | some q =>
    have h1 : (loop001 (fun x => some (f x)) maxSize chainFrom90).1 =
        Exit001.accepted q (f q) := by
      rw [loop001_total_fst, hf]
    rcases hL : loop001 (fun x => some (f x)) maxSize chainFrom90 with ⟨e, cs, ts⟩
    rw [hL] at h1
    have h2 : e = Exit001.accepted q (f q) := h1
    subst h2
    simp only [processFile001, if_neg h, hL]
  | none =>
    have h1 : (loop001 (fun x => some (f x)) maxSize chainFrom90).1 =
        Exit001.exhausted := by
      rw [loop001_total_fst, hf]
    rcases hL : loop001 (fun x => some (f x)) maxSize chainFrom90 with ⟨e, cs, ts⟩
    rw [hL] at h1
    have h2 : e = Exit001.exhausted := h1
    subst h2
    simp only [processFile001, if_neg h, hL]

theorem processFile002_eval (enc : Int → Nat) (size maxSize : Nat) (h : maxSize < size) :
    (processFile002 enc size maxSize).output =
      (match chainFrom90.find? (fun x => decide (enc x ≤ maxSize)) with
       | some q => some (FinalOut.encoded q (enc q))
       | none => some FinalOut.copy)
  ∧ (processFile002 enc size maxSize).errors =
      (match chainFrom90.find? (fun x => decide (enc x ≤ maxSize)) with
       | some _ => 0
       | none => 1) := by
  have hlt : ¬ size < maxSize := by omega
  have hle : ¬ size ≤ maxSize := by omega
  cases hf : chainFrom90.find? (fun x => decide (enc x ≤ maxSize)) with
  | some q =>
    have h1 : (loop002 enc maxSize chainFrom90).1 = some (q, enc q) := by
      rw [loop002_fst, hf]
      rfl
    rcases hL : loop002 enc maxSize chainFrom90 with ⟨o, cs, ts⟩
    rw [hL] at h1
    have h2 : o = some (q, enc q) := h1
    subst h2
    constructor
    · simp only [processFile002, if_neg hlt, if_neg hle, hL]
    · simp only [processFile002, if_neg hlt, if_neg hle, hL]
  | none =>
    have h1 : (loop002 enc maxSize chainFrom90).1 = none := by
      rw [loop002_fst, hf]
      rfl
    rcases hL : loop002 enc maxSize chainFrom90 with ⟨o, cs, ts⟩
    rw [hL] at h1
    have h2 : o = none := h1
    subst h2
    constructor
    · simp only [processFile002, if_neg hlt, if_neg hle, hL]
    · simp only [processFile002, if_neg hlt, if_neg hle, hL]

theorem processFile003_eval (enc : Int → Nat) (size maxSize : Nat) (h : maxSize < size) :
    (processFile003 enc size maxSize).output =
      (match chainFrom90.find? (fun x => decide (enc x ≤ maxSize)) with
       | some q => some (FinalOut.encoded q (enc q))
       | none => some FinalOut.copy) := by
  have hlt : ¬ size < maxSize := by omega
  have hle : ¬ size ≤ maxSize := by omega
  cases hf : chainFrom90.find? (fun x => decide (enc x ≤ maxSize)) with
  | some q =>
    have h1 : (loop002 enc maxSize chainFrom90).1 = some (q, enc q) := by
      rw [loop002_fst, hf]
      rfl
    rcases hL : loop002 enc maxSize chainFrom90 with ⟨o, cs, ts⟩
    rw [hL] at h1
    have h2 : o = some (q, enc q) := h1
    subst h2
    simp only [processFile003, if_neg hlt, if_neg hle, hL]
  | none =>
    have h1 : (loop002 enc maxSize chainFrom90).1 = none := by
      rw [loop002_fst, hf]
      rfl
    rcases hL : loop002 enc maxSize chainFrom90 with ⟨o, cs, ts⟩
    rw [hL] at h1
    have h2 : o = none := h1
    subst h2
    simp only [processFile003, if_neg hlt, if_neg hle, hL]

/-! ## Claim theorems -/

/-- C1: the primary pass of the similarity-gated search accepts a
candidate exactly when its size is at most `ceiling * (1 + tolerance)`
and its similarity is at least the floor; it probes the qualities
`qmax, qmax - 10, ...` (staying at or above `qmin`) downward, and the
accepted quality is the first — hence highest — probed quality meeting
both constraints, which then becomes the result of
`findOptimalCompression`. -/
theorem primary_pass_first_highest (enc : Int → Nat) (sim : Int → ℚ) (maxSize : Nat)
    (minSSIM tol : ℚ) (qmin qmax : Int) :
    (∀ x : Int, primaryAccept enc sim maxSize minSSIM tol x = true ↔
      ((enc x : ℚ) ≤ (maxSize : ℚ) * (1 + tol) ∧ minSSIM ≤ sim x))
  ∧ (∀ x : Int, x ∈ descendProbes qmin 10 qmax ↔
      ∃ k : Nat, x = qmax - (k : Int) * 10 ∧ qmin ≤ x)
  ∧ (∀ r : Int,
      linearDescent (primaryAccept enc sim maxSize minSSIM tol) qmin 10 qmax = some r ↔
        (r ∈ descendProbes qmin 10 qmax ∧
         primaryAccept enc sim maxSize minSSIM tol r = true ∧
         ∀ x ∈ descendProbes qmin 10 qmax, r < x →
           primaryAccept enc sim maxSize minSSIM tol x = false))
  ∧ (∀ r : Int,
      linearDescent (primaryAccept enc sim maxSize minSSIM tol) qmin 10 qmax = some r →
        (findOptimalCompression enc sim maxSize minSSIM qmin qmax tol).result =
          some (r, enc r)) := by
  refine ⟨?_, ?_, ?_, ?_⟩
  · intro x
    simp [primaryAccept]
  · intro x
    have h := descendProbes_mem qmin 10 (by norm_num) qmax x
    simpa using h
  · intro r
    rw [linearDescent_eq_find]
    exact find?_pairwise_gt _ _ (descendProbes_pairwise qmin 10 (by norm_num) qmax) r
  · intro r hr
    have h1 : (trialLoop (primaryAccept enc sim maxSize minSSIM tol)
        (descendProbes qmin 10 qmax)).1 = some r := by
      rw [trialLoop_fst, ← linearDescent_eq_find]
      exact hr
    simp only [findOptimalCompression, h1]

/-- C1 witness: with a constant 40,000-byte encoder, perfect similarity,
ceiling 50,000, floor 0.9, bounds [50, 90] and tolerance 0.1, the first
probe at quality 90 meets both constraints and is returned. -/
theorem primary_pass_first_highest_witness :
    (findOptimalCompression (fun _ => 40000) (fun _ => 1) 50000 (9/10) 50 90 (1/10)).result
      = some (90, 40000) := by
  refine (primary_pass_first_highest (fun _ => 40000) (fun _ => 1) 50000 (9/10) (1/10)
    50 90).2.2.2 90 ?_
  have hacc : primaryAccept (fun _ => 40000) (fun _ => 1) 50000 (9/10) (1/10)
      = fun _ => true := by
    funext q
    unfold primaryAccept
    norm_num
  rw [hacc]
  decide

/-- C2 counterexample: with ceiling 50,000, floor 0.9, bounds [50, 90],
tolerance 0.1, a constant 60,000-byte encoder and zero similarity, both
the primary pass and the fallback pass reject every probed quality; the
function returns `null`, and the destination holds nothing — in
particular not the copy of the original that the claim asserts. -/
theorem fallback_no_copy_counterexample :
    (findOptimalCompression (fun _ => 60000) (fun _ => 0) 50000 (9/10) 50 90 (1/10)).result
      = none
  ∧ (findOptimalCompression (fun _ => 60000) (fun _ => 0) 50000 (9/10) 50 90 (1/10)).output
      = none := by
  have h1 : primaryAccept (fun _ => 60000) (fun _ => 0) 50000 (9/10) (1/10)
      = fun _ => false := by
    funext q
    unfold primaryAccept
    norm_num
  have h2 : fallbackAccept (fun _ => 60000) (fun _ => 0) 50000 (9/10)
      = fun _ => false := by
    funext q
    unfold fallbackAccept
    norm_num
  constructor
  · unfold findOptimalCompression
    rw [h1, h2]
    decide
  · unfold findOptimalCompression
    rw [h1, h2]
    decide

/-- C2 (amended): when the primary descending pass accepts nothing, the
search runs a second pass upward over the probes
`qmin + 5, qmin + 10, ..., qmax` (i.e. `[qmin + step/2, qmax]` in
half-step increments), accepting the first quality whose output meets
the size constraint (without tolerance) OR the similarity constraint;
if this second pass also accepts nothing, the result is `null`
(Unsatisfiable) and the caller discards it, leaving no output at the
destination rather than copying the original. -/
theorem fallback_or_pass (enc : Int → Nat) (sim : Int → ℚ) (maxSize : Nat)
    (minSSIM tol : ℚ) (qmin qmax : Int)
    (hprim : linearDescent (primaryAccept enc sim maxSize minSSIM tol) qmin 10 qmax = none) :
    ((findOptimalCompression enc sim maxSize minSSIM qmin qmax tol).result =
      (ascendSearch (fallbackAccept enc sim maxSize minSSIM) qmax 5 (qmin + 5)).map
        (fun q => (q, enc q)))
  ∧ (∀ x ∈ ascendProbes qmax 5 (qmin + 5), qmin + 5 ≤ x ∧ x ≤ qmax)
  ∧ (∀ x : Int, fallbackAccept enc sim maxSize minSSIM x = true ↔
      (enc x ≤ maxSize ∨ minSSIM ≤ sim x))
  ∧ (∀ r : Int,
      ascendSearch (fallbackAccept enc sim maxSize minSSIM) qmax 5 (qmin + 5) = some r ↔
        (r ∈ ascendProbes qmax 5 (qmin + 5) ∧
         fallbackAccept enc sim maxSize minSSIM r = true ∧
         ∀ x ∈ ascendProbes qmax 5 (qmin + 5), x < r →
           fallbackAccept enc sim maxSize minSSIM x = false))
  ∧ (ascendSearch (fallbackAccept enc sim maxSize minSSIM) qmax 5 (qmin + 5) = none →
      (findOptimalCompression enc sim maxSize minSSIM qmin qmax tol).result = none ∧
      (findOptimalCompression enc sim maxSize minSSIM qmin qmax tol).output = none) := by
  have hp1 : (trialLoop (primaryAccept enc sim maxSize minSSIM tol)
      (descendProbes qmin 10 qmax)).1 = none := by
    rw [trialLoop_fst, ← linearDescent_eq_find]
    exact hprim
  have hf1 : (trialLoop (fallbackAccept enc sim maxSize minSSIM)
      (ascendProbes qmax 5 (qmin + 5))).1 =
      ascendSearch (fallbackAccept enc sim maxSize minSSIM) qmax 5 (qmin + 5) := by
    rw [trialLoop_fst, ascendSearch_eq_find]
  refine ⟨?_, ?_, ?_, ?_, ?_⟩
  · cases hres : ascendSearch (fallbackAccept enc sim maxSize minSSIM) qmax 5 (qmin + 5) with
    | none =>
      rw [hres] at hf1
      simp only [findOptimalCompression, hp1, hf1]
      rfl
    | some r =>
      rw [hres] at hf1
      simp only [findOptimalCompression, hp1, hf1]
      rfl
  · intro x hx
    exact ascendProbes_bounds qmax 5 (qmin + 5) x hx
  · intro x
    simp [fallbackAccept]
  · intro r
    rw [ascendSearch_eq_find]
    exact find?_pairwise_lt _ _ (ascendProbes_pairwise qmax 5 (by norm_num) (qmin + 5)) r
  · intro hres
    rw [hres] at hf1
    constructor
    · simp only [findOptimalCompression, hp1, hf1]
    · simp only [findOptimalCompression, hp1, hf1]

/-- C2 witness: primary fails (similarity 0 below the 0.9 floor) but the
fallback size test `40000 <= 50000` passes, so the loose-OR second pass
accepts its first probe, quality 55. -/
theorem fallback_or_pass_witness :
    (findOptimalCompression (fun _ => 40000) (fun _ => 0) 50000 (9/10) 50 90 (1/10)).result
      = some (55, 40000) := by
  have hp : primaryAccept (fun _ => 40000) (fun _ => 0) 50000 (9/10) (1/10)
      = fun _ => false := by
    funext q
    unfold primaryAccept
    norm_num
  have hacc : fallbackAccept (fun _ => 40000) (fun _ => 0) 50000 (9/10)
      = fun _ => true := by
    funext q
    unfold fallbackAccept
    norm_num
  have hprim : linearDescent (primaryAccept (fun _ => 40000) (fun _ => 0) 50000 (9/10) (1/10))
      50 10 90 = none := by
    rw [hp]
    decide
  have h := (fallback_or_pass (fun _ => 40000) (fun _ => 0) 50000 (9/10) (1/10) 50 90 hprim).1
  rw [h, hacc]
  decide

/-- C3: with ceiling 50,000, floor 0.9, bounds [50, 90], tolerance 0.1,
an encoder producing 10,000,000 bytes at every quality and similarity 0
everywhere, no probed quality meets the size ceiling; the search returns
`null` and the destination holds nothing — the mandated byte-for-byte
copy of the original never happens in the src/index.js pipeline. -/
theorem index_unsat_no_output :
    (findOptimalCompression (fun _ => 10000000) (fun _ => 0) 50000 (9/10) 50 90 (1/10)).result
      = none
  ∧ (findOptimalCompression (fun _ => 10000000) (fun _ => 0) 50000 (9/10) 50 90 (1/10)).output
      = none := by
  have h1 : primaryAccept (fun _ => 10000000) (fun _ => 0) 50000 (9/10) (1/10)
      = fun _ => false := by
    funext q
    unfold primaryAccept
    norm_num
  have h2 : fallbackAccept (fun _ => 10000000) (fun _ => 0) 50000 (9/10)
      = fun _ => false := by
    funext q
    unfold fallbackAccept
    norm_num
  constructor
  · unfold findOptimalCompression
    rw [h1, h2]
    decide
  · unfold findOptimalCompression
    rw [h1, h2]
    decide

/-- C4 counterexample: in part_000 the loop starts at quality 100 and
decreases in steps of 5, so the `quality === 1` stop is never reached;
with an encoder that always produces 3,000,000 bytes (above the 2 MB
ceiling) the loop has still not stopped after 200 iterations — long
after the quality passed every lower bound — so the descent does not
stop when qmin is reached. -/
theorem part000_no_stop_counterexample :
    loop000 (fun _ => some 3000000) 200 100 = none ∧
    processImage000 (fun _ => some 3000000) 2200000 200 = none := by
  constructor
  · decide
  · decide

/-- C4 (amended): in part_001, part_002 and part_003 the linear descent
starts at quality 90, decreases by the fixed step 10, stops at the first
probed quality whose encoded size is within the ceiling — the first,
hence highest, probed quality satisfying the size constraint — and when
the quality reaches 0 the original is copied; in part_000 (start 100,
step 5) the `quality === 1` stop is unreachable and the loop does not
stop at all when no quality satisfies the size constraint. -/
theorem linear_descent_policy (f enc : Int → Nat) (size maxSize : Nat)
    (h : maxSize < size) :
    (∀ r : Int, chainFrom90.find? (fun x => decide (enc x ≤ maxSize)) = some r ↔
        (r ∈ chainFrom90 ∧ enc r ≤ maxSize ∧
         ∀ x ∈ chainFrom90, r < x → maxSize < enc x))
  ∧ (∀ q : Int, chainFrom90.find? (fun x => decide (f x ≤ maxSize)) = some q →
        (processFile001 (fun x => some (f x)) size maxSize).output =
          some (FinalOut.encoded q (f q)))
  ∧ (chainFrom90.find? (fun x => decide (f x ≤ maxSize)) = none →
        (processFile001 (fun x => some (f x)) size maxSize).output = some FinalOut.copy)
  ∧ (∀ q : Int, chainFrom90.find? (fun x => decide (enc x ≤ maxSize)) = some q →
        (processFile002 enc size maxSize).output = some (FinalOut.encoded q (enc q)) ∧
        (processFile003 enc size maxSize).output = some (FinalOut.encoded q (enc q)))
  ∧ (chainFrom90.find? (fun x => decide (enc x ≤ maxSize)) = none →
        (processFile002 enc size maxSize).output = some FinalOut.copy ∧
        (processFile003 enc size maxSize).output = some FinalOut.copy) := by
  refine ⟨?_, ?_, ?_, ?_, ?_⟩
  · intro r
    rw [find?_pairwise_gt _ chainFrom90 (by decide) r]
    simp
  · intro q hq
    rw [processFile001_eval f size maxSize (by omega), hq]
  · intro hq
    rw [processFile001_eval f size maxSize (by omega), hq]
  · intro q hq
    exact ⟨by rw [(processFile002_eval enc size maxSize h).1, hq],
           by rw [processFile003_eval enc size maxSize h, hq]⟩
  · intro hq
    exact ⟨by rw [(processFile002_eval enc size maxSize h).1, hq],
           by rw [processFile003_eval enc size maxSize h, hq]⟩

/-- C4 witness: with encoder size `30000 * quality` and ceiling
2,097,152 on a 3,000,000-byte input, the descent 90, 80, 70, 60 stops at
60 (1,800,000 bytes), the first probed quality within the ceiling. -/
theorem linear_descent_policy_witness :
    (processFile001 (fun x => some (x.toNat * 30000)) 3000000 2097152).output =
      some (FinalOut.encoded 60 1800000) :=
  (linear_descent_policy (fun x => x.toNat * 30000) (fun x => x.toNat * 30000)
    3000000 2097152 (by norm_num)).2.1 60 (by decide)

/-- C5 counterexample: at input size exactly equal to the ceiling
(2,097,152 bytes) — which the claim covers via "less than or equal" —
part_001 takes the compression branch (its guard is the strict
`size < maxSize`), issues an encode call at quality 90, and writes a
re-encoded output instead of copying the input. -/
theorem size_equal_ceiling_counterexample :
    (processFile001 (fun _ => some 1000) 2097152 2097152).encodes = [90] ∧
    (processFile001 (fun _ => some 1000) 2097152 2097152).output =
      some (FinalOut.encoded 90 1000) := by
  constructor
  · decide
  · decide

/-- C5 (amended): for every input whose file size is strictly less than
the ceiling, each variant copies the input unmodified and issues no
encode call (part_000 compares against its hard-coded 2 MB ceiling);
the spec scenario — ceiling 2,097,152, input 500,000 — satisfies the
strict inequality and behaves as claimed. -/
theorem small_input_copied (encA : Int → Option Nat) (enc2 enc3 : Int → Nat)
    (enc0 : Int → Option Nat) (size maxSize fuel : Nat)
    (h : size < maxSize) (h0 : size < 2 * 1024 * 1024) :
    (processFile001 encA size maxSize).output = some FinalOut.copy
  ∧ (processFile001 encA size maxSize).encodes = []
  ∧ (processFile002 enc2 size maxSize).output = some FinalOut.copy
  ∧ (processFile002 enc2 size maxSize).encodes = []
  ∧ (processFile003 enc3 size maxSize).output = some FinalOut.copy
  ∧ (processFile003 enc3 size maxSize).encodes = []
  ∧ processImage000 enc0 size fuel = some FinalOut.copy := by
  refine ⟨?_, ?_, ?_, ?_, ?_, ?_, ?_⟩ <;>
    simp [processFile001, processFile002, processFile003, processImage000, h, h0]

/-- C5 witness: the spec scenario — ceiling 2,097,152 bytes, input
500,000 bytes — is accepted with no encode call and the output is the
unmodified input. -/
theorem small_input_copied_witness :
    (processFile001 (fun _ => some 0) 500000 2097152).output = some FinalOut.copy
  ∧ (processFile001 (fun _ => some 0) 500000 2097152).encodes = []
  ∧ processImage000 (fun _ => some 0) 500000 1 = some FinalOut.copy := by
  have h := small_input_copied (fun _ => some 0) (fun _ => 0) (fun _ => 0) (fun _ => some 0)
    500000 2097152 1 (by norm_num) (by norm_num)
  exact ⟨h.1, h.2.1, h.2.2.2.2.2.2⟩

/-- C6 counterexample: with ceiling 100,000, floor 0.9, bounds [50, 90],
tolerance 0.1, constant encoder size 5,000,000 and constant similarity
0.5, both passes of `findOptimalCompression` reject everything and the
call produces zero final outputs at the destination — not the exactly
one output per request that the claim asserts. -/
theorem index_unsat_zero_outputs :
    (findOptimalCompression (fun _ => 5000000) (fun _ => 1/2) 100000 (9/10) 50 90 (1/10)).output
      = none := by
  have h1 : primaryAccept (fun _ => 5000000) (fun _ => 1/2) 100000 (9/10) (1/10)
      = fun _ => false := by
    funext q
    unfold primaryAccept
    norm_num
  have h2 : fallbackAccept (fun _ => 5000000) (fun _ => 1/2) 100000 (9/10)
      = fun _ => false := by
    funext q
    unfold fallbackAccept
    norm_num
  unfold findOptimalCompression
  rw [h1, h2]
  decide

/-- C6 (amended): every trial encode that is not the final accepted one
is discarded — no temp file remains after `findOptimalCompression` or
after the part_001 `processFile`, and the output is never an
intermediate attempt: it is exactly the accepted encode when the search
result is non-null; when the result is null nothing is produced (so at
most one, not exactly one, final output per request); part_001 with a
never-failing encoder always produces exactly one output. -/
theorem single_output_no_temp (enc : Int → Nat) (sim : Int → ℚ) (maxSize : Nat)
    (minSSIM tol : ℚ) (qmin qmax : Int) (encF : Int → Option Nat) (size maxSize2 : Nat) :
    (findOptimalCompression enc sim maxSize minSSIM qmin qmax tol).temps = []
  ∧ (∀ q s, (findOptimalCompression enc sim maxSize minSSIM qmin qmax tol).result
        = some (q, s) →
      (findOptimalCompression enc sim maxSize minSSIM qmin qmax tol).output =
        some (FinalOut.encoded q s))
  ∧ ((findOptimalCompression enc sim maxSize minSSIM qmin qmax tol).result = none →
      (findOptimalCompression enc sim maxSize minSSIM qmin qmax tol).output = none)
  ∧ (processFile001 encF size maxSize2).temps = []
  ∧ ((∀ x : Int, (encF x).isSome) →
      ∃ o, (processFile001 encF size maxSize2).output = some o) := by
  have hT1 := trialLoop_temps (primaryAccept enc sim maxSize minSSIM tol)
    (descendProbes qmin 10 qmax)
  have hT2 := trialLoop_temps (fallbackAccept enc sim maxSize minSSIM)
    (ascendProbes qmax 5 (qmin + 5))
  refine ⟨?_, ?_, ?_, ?_, ?_⟩
  · simp only [findOptimalCompression]
    cases hp : (trialLoop (primaryAccept enc sim maxSize minSSIM tol)
        (descendProbes qmin 10 qmax)).1 with
    | some q => simpa using hT1
    | none =>
      cases hf : (trialLoop (fallbackAccept enc sim maxSize minSSIM)
          (ascendProbes qmax 5 (qmin + 5))).1 with
      | some q => simp [hT1, hT2]
      | none => simp [hT1, hT2]
  · intro q s hres
    simp only [findOptimalCompression] at hres ⊢
    cases hp : (trialLoop (primaryAccept enc sim maxSize minSSIM tol)
        (descendProbes qmin 10 qmax)).1 with
    | some q2 =>
      rw [hp] at hres
      simp only at hres
      injection hres with hres
      injection hres with hq hs
      subst hq
      subst hs
      rfl
    | none =>
      rw [hp] at hres
      cases hf : (trialLoop (fallbackAccept enc sim maxSize minSSIM)
          (ascendProbes qmax 5 (qmin + 5))).1 with
      | some q2 =>
        rw [hf] at hres
        simp only at hres
        injection hres with hres
        injection hres with hq hs
        subst hq
        subst hs
        rfl
      | none =>
        rw [hf] at hres
        simp at hres
  · intro hres
    simp only [findOptimalCompression] at hres ⊢
    cases hp : (trialLoop (primaryAccept enc sim maxSize minSSIM tol)
        (descendProbes qmin 10 qmax)).1 with
    | some q2 =>
      rw [hp] at hres
      simp at hres
    | none =>
      rw [hp] at hres
      cases hf : (trialLoop (fallbackAccept enc sim maxSize minSSIM)
          (ascendProbes qmax 5 (qmin + 5))).1 with
      | some q2 =>
        rw [hf] at hres
        simp at hres
      | none =>
        rw [hf] at hres
  · by_cases h : size < maxSize2
    · simp [processFile001, h]
    · have hT := loop001_temps encF maxSize2 chainFrom90
      rcases hL : loop001 encF maxSize2 chainFrom90 with ⟨e, cs, ts⟩
      rw [hL] at hT
      have hts : ts = [] := hT
      subst hts
      cases e with
      | accepted q s => simp [processFile001, h, hL]
      | exhausted => simp [processFile001, h, hL]
      | errored q => simp [processFile001, h, hL]
  · intro htotal
    by_cases h : size < maxSize2
    · exact ⟨FinalOut.copy, by simp [processFile001, h]⟩
    · rcases hL : loop001 encF maxSize2 chainFrom90 with ⟨e, cs, ts⟩
      cases e with
      | accepted q s => exact ⟨FinalOut.encoded q s, by simp [processFile001, h, hL]⟩
      | exhausted => exact ⟨FinalOut.copy, by simp [processFile001, h, hL]⟩
      | errored q =>
        have hiff := (loop001_errored_iff encF maxSize2 chainFrom90).mp
        rw [hL] at hiff
        rcases hiff ⟨q, rfl⟩ with ⟨q2, _, hq2⟩
        have := htotal q2
        rw [hq2] at this
        simp at this

/-- C6 witness: a constant 30,000-byte encoder with perfect similarity
is accepted at the first probe; no temp file remains and the single
final output is the accepted encode at quality 90. -/
theorem single_output_no_temp_witness :
    (findOptimalCompression (fun _ => 30000) (fun _ => 1) 50000 (9/10) 50 90 (1/10)).temps = []
  ∧ (findOptimalCompression (fun _ => 30000) (fun _ => 1) 50000 (9/10) 50 90 (1/10)).output
      = some (FinalOut.encoded 90 30000) := by
  have h := single_output_no_temp (fun _ => 30000) (fun _ => 1) 50000 (9/10) (1/10) 50 90
    (fun _ => some 0) 0 1
  refine ⟨h.1, h.2.1 90 30000 ?_⟩
  have hacc : primaryAccept (fun _ => 30000) (fun _ => 1) 50000 (9/10) (1/10)
      = fun _ => true := by
    funext q
    unfold primaryAccept
    norm_num
  unfold findOptimalCompression
  rw [hacc]
  decide

/-- C7 counterexample: the encoder `size(q) = max(q, 0)` is
non-decreasing in quality; with ceiling 41, bounds [1, 90] and step 10,
linear descent accepts quality 40 with size 40 while the spec-modelled
binary search accepts quality 41 with size 41 — the accepted sizes
differ, refuting "the same accepted size". -/
theorem bin_lin_size_differ_counterexample :
    linearDescent (fun q => decide (q.toNat ≤ 41)) 1 10 90 = some 40 ∧
    binarySearch (fun q => decide (q.toNat ≤ 41)) 1 90 = some 41 ∧
    (40 : Int).toNat ≠ (41 : Int).toNat := by
  refine ⟨by decide, by decide, by decide⟩

/-- C7 (amended): for an encoder whose size is non-decreasing in
quality, whenever linear descent (step `s`) and the spec-modelled binary
search both accept, the accepted qualities agree within step
granularity (`ql ≤ qb < ql + s`), both accepted sizes satisfy the
ceiling, and with step 1 the accepted quality and size coincide exactly;
for step > 1 the sizes may differ within that granularity. -/
theorem bin_lin_agree (enc : Int → Nat) (C : Nat) (qmin qmax : Int) (step : Nat)
    (hmono : ∀ a b : Int, a ≤ b → enc a ≤ enc b) (hstep : 1 ≤ step)
    (ql qb : Int)
    (hl : linearDescent (fun q => decide (enc q ≤ C)) qmin step qmax = some ql)
    (hb : binarySearch (fun q => decide (enc q ≤ C)) qmin qmax = some qb) :
    ql ≤ qb ∧ qb < ql + step ∧ enc ql ≤ C ∧ enc qb ≤ C ∧
    (step = 1 → (qb = ql ∧ enc qb = enc ql)) := by
  have hdc : ∀ a b : Int, a ≤ b → (fun q => decide (enc q ≤ C)) b = true →
      (fun q => decide (enc q ≤ C)) a = true := by
    intro a b hab hbC
    simp only [decide_eq_true_eq] at hbC ⊢
    exact le_trans (hmono a b hab) hbC
  have hbin := (binarySearch_correct _ hdc qmin qmax).2 qb hb
  rcases hbin with ⟨haccb, hqbmin, hqbmax, hmaxb⟩
  have haccb₂ : enc qb ≤ C := by simpa using haccb
  rw [linearDescent_eq_find] at hl
  rw [find?_pairwise_gt _ _ (descendProbes_pairwise qmin step hstep qmax) ql] at hl
  rcases hl with ⟨hmem, haccl, hmaxl⟩
  have haccl₂ : enc ql ≤ C := by simpa using haccl
  have hbounds := descendProbes_bounds qmin step qmax ql hmem
  have hlb : ql ≤ qb := hmaxb ql hbounds.1 hbounds.2 haccl
  have hub : qb < ql + step := by
    by_contra hcon
    push_neg at hcon
    rcases (descendProbes_mem qmin step hstep qmax ql).mp hmem with ⟨k, hk, hqlmin⟩
    cases k with
    | zero =>
      simp only [Nat.cast_zero, zero_mul, sub_zero] at hk
      have hst : (1:Int) ≤ (step : Int) := by exact_mod_cast hstep
      omega
    | succ k =>
      have hst0 : (0:Int) ≤ (step : Int) := by positivity
      have hc : ((k + 1 : Nat) : Int) * (step : Int) = (k : Int) * (step : Int) + step := by
        push_cast
        ring
      have hmem₂ : ql + step ∈ descendProbes qmin step qmax := by
        rw [descendProbes_mem qmin step hstep qmax]
        exact ⟨k, by omega, by omega⟩
      have haccstep : decide (enc (ql + (step : Int)) ≤ C) = true :=
        hdc (ql + step) qb hcon haccb
      have hst : (1:Int) ≤ (step : Int) := by exact_mod_cast hstep
      have hfalse := hmaxl (ql + step) hmem₂ (by omega)
      rw [haccstep] at hfalse
      cases hfalse
  refine ⟨hlb, hub, haccl₂, haccb₂, ?_⟩
  intro h1
  subst h1
  have : qb = ql := by
    simp only [Nat.cast_one] at hub
    omega
  exact ⟨this, by rw [this]⟩

/-- C7 witness: encoder `size(q) = max(q, 0)` (non-decreasing), ceiling
40, bounds [1, 90], step 10: both policies accept quality 40 and the
agreement bounds of the amended claim hold there. -/
theorem bin_lin_agree_witness :
    linearDescent (fun q => decide (q.toNat ≤ 40)) 1 10 90 = some 40 ∧
    binarySearch (fun q => decide (q.toNat ≤ 40)) 1 90 = some 40 ∧
    ((40 : Int) ≤ 40 ∧ (40 : Int) < 40 + ((10 : Nat) : Int) ∧
      (40 : Int).toNat ≤ 40 ∧ (40 : Int).toNat ≤ 40 ∧
      ((10 : Nat) = 1 → ((40 : Int) = 40 ∧ (40 : Int).toNat = (40 : Int).toNat))) := by
  refine ⟨by decide, by decide, ?_⟩
  exact bin_lin_agree (fun q => q.toNat) 40 1 90 10
    (fun a b h => by dsimp only; omega) (by norm_num) 40 40 (by decide) (by decide)

/-- C8 counterexample: a 3,000,000-byte input with an encoder that
always produces 2,500,000 bytes (above the 2 MB target) never fails —
yet part_002 increments its error counter on the unsatisfiable-then-copy
path, so the counter does not increment only on actual failures. -/
theorem part002_counts_unsat_as_error :
    (processFile002 (fun _ => 2500000) 3000000 2097152).errors = 1 ∧
    (processFile002 (fun _ => 2500000) 3000000 2097152).output = some FinalOut.copy ∧
    (processFile002 (fun _ => 2500000) 3000000 2097152).encodes = chainFrom90 := by
  refine ⟨by decide, by decide, by decide⟩

/-- C8 (amended): in part_001 the per-file error counter increments
exactly when one of the issued encode calls fails (and never exceeds
one per file); in part_002, whose summary labels the counter
Errors/Unable to Compress, the counter also increments — with a
never-failing encoder — exactly when every probed quality stays above
the ceiling, i.e. on the unsatisfiable-then-copy path. -/
theorem error_counter_policy (enc : Int → Option Nat) (enc2 : Int → Nat)
    (size size2 maxSize : Nat) (h2 : maxSize < size2) :
    ((processFile001 enc size maxSize).errors = 1 ↔
      ∃ q ∈ (processFile001 enc size maxSize).encodes, enc q = none)
  ∧ (processFile001 enc size maxSize).errors ≤ 1
  ∧ ((processFile002 enc2 size2 maxSize).errors = 1 ↔
      ∀ x ∈ chainFrom90, maxSize < enc2 x) := by
  have hiff := loop001_errored_iff enc maxSize chainFrom90
  refine ⟨?_, ?_, ?_⟩
  · by_cases h : size < maxSize
    · simp [processFile001, h]
    · rcases hL : loop001 enc maxSize chainFrom90 with ⟨e, cs, ts⟩
      rw [hL] at hiff
      cases e with
      | accepted q s =>
        simp only [processFile001, if_neg h, hL]
        simp only [show ((Exit001.accepted q s, cs, ts).1 = Exit001.accepted q s) from rfl] at hiff
        constructor
        · intro h01
          cases h01
        · intro hx
          rcases hiff.mpr hx with ⟨q2, hq2⟩
          cases hq2
      | exhausted =>
        simp only [processFile001, if_neg h, hL]
        constructor
        · intro h01
          cases h01
        · intro hx
          rcases hiff.mpr hx with ⟨q2, hq2⟩
          cases hq2
      | errored q =>
        simp only [processFile001, if_neg h, hL]
        exact ⟨fun _ => hiff.mp ⟨q, rfl⟩, fun _ => by trivial⟩
  · by_cases h : size < maxSize
    · simp [processFile001, h]
    · rcases hL : loop001 enc maxSize chainFrom90 with ⟨e, cs, ts⟩
      cases e with
      | accepted q s => simp [processFile001, h, hL]
      | exhausted => simp [processFile001, h, hL]
      | errored q => simp [processFile001, h, hL]
  · have he := (processFile002_eval enc2 size2 maxSize h2).2
    cases hf : chainFrom90.find? (fun x => decide (enc2 x ≤ maxSize)) with
    | some q =>
      rw [hf] at he
      rw [he]
      constructor
      · intro h01
        cases h01
      · intro hx
        have hqmem := List.mem_of_find?_eq_some hf
        have hqacc := List.find?_some hf
        simp only [decide_eq_true_eq] at hqacc
        have := hx q hqmem
        omega
    | none =>
      rw [hf] at he
      rw [he]
      refine ⟨fun _ x hx => ?_, fun _ => rfl⟩
      have := List.find?_eq_none.mp hf x hx
      simp only [decide_eq_true_eq] at this
      omega

/-- C8 witness: in part_001 an encoder that throws at its very first
probe (quality 90) increments the error counter; the failing quality is
among the issued encode calls. -/
theorem error_counter_policy_witness :
    (processFile001 (fun _ => none) 3000000 2097152).errors = 1 :=
  ((error_counter_policy (fun _ => none) (fun _ => 0) 3000000 3000000 2097152
    (by norm_num)).1).mpr ⟨90, by decide, rfl⟩

/-- C9: for part_000 inputs in the compression branch, the loop starting
at quality 100 with step 5 terminates (for some iteration fuel) exactly
when some quality `100 - 5k` with `k ≤ 19` (i.e. a quality in
100, 95, ..., 10, 5) both encodes successfully and comes in under
2 * 1024 * 1024 bytes while every earlier encode call succeeds with an
over-budget size; moreover the `quality === 1` stop condition is never
the exit point.  The hypothesis reflects that the encoder rejects
non-positive qualities (a failed encode leaves the loop state unchanged
forever). -/
theorem part000_termination_iff (enc : Int → Option Nat)
    (henc : ∀ q : Int, q ≤ 0 → enc q = none) :
    ((∃ (n : Nat) (r : Int × Nat), loop000 enc n 100 = some r) ↔
      (∃ k : Nat, k ≤ 19 ∧
        (∃ s, enc (100 - 5 * k) = some s ∧ s < 2 * 1024 * 1024) ∧
        (∀ j : Nat, j < k → ∃ s, enc (100 - 5 * j) = some s ∧ 2 * 1024 * 1024 ≤ s)))
  ∧ (∀ (n : Nat) (q : Int) (s : Nat), loop000 enc n 100 = some (q, s) → q ≠ 1) := by
  constructor
  · constructor
    · rintro ⟨n, r, hn⟩
      rcases loop000_chain enc n 100 r (by norm_num) hn with ⟨k, hsmall, hbig⟩
      refine ⟨k, ?_, hsmall, hbig⟩
      by_contra hk
      push_neg at hk
      rcases hsmall with ⟨s, hs, _⟩
      rw [henc (100 - 5 * k) (by omega)] at hs
      cases hs
    · rintro ⟨k, _, hsmall, hbig⟩
      exact loop000_terminates enc k 100 hsmall hbig
  · intro n q s hn
    rcases loop000_exit_quality enc n 100 (q, s) hn with ⟨k, hk⟩
    simp only at hk
    omega

/-- C9 witness: an encoder succeeding at every positive quality with
size `20000 * q` terminates immediately — quality 100 already encodes to
2,000,000 bytes, under the 2 MB budget. -/
theorem part000_termination_iff_witness :
    ∃ (n : Nat) (r : Int × Nat),
      loop000 (fun q => if 1 ≤ q then some (20000 * q.toNat) else none) n 100 = some r := by
  have henc : ∀ q : Int, q ≤ 0 →
      (fun q => if 1 ≤ q then some (20000 * q.toNat) else none) q = none := by
    intro q hq
    simp only
    rw [if_neg (by omega)]
  refine (part000_termination_iff _ henc).1.mpr ⟨0, by norm_num, ⟨2000000, ?_, by norm_num⟩, ?_⟩
  · show (if (1:Int) ≤ 100 - 5 * ((0:Nat) : Int)
        then some (20000 * ((100:Int) - 5 * ((0:Nat) : Int)).toNat) else none)
      = some 2000000
    decide
  · intro j hj
    omega

/-- C10: whenever the input size is at least the ceiling, the part_001,
part_002 and part_003 variants issue encode calls only at qualities in
{90, 80, 70, 60, 50, 40, 30, 20, 10}; and when every probed quality —
including quality 10, the lowest — exceeds the ceiling, the original is
copied after probing exactly that set, with no lower quality ever
tried. -/
theorem probe_set_bounded (enc : Int → Option Nat) (enc2 enc3 : Int → Nat)
    (size maxSize : Nat) (h : maxSize ≤ size) :
    (∀ q ∈ (processFile001 enc size maxSize).encodes, q ∈ chainFrom90)
  ∧ (∀ q ∈ (processFile002 enc2 size maxSize).encodes, q ∈ chainFrom90)
  ∧ (∀ q ∈ (processFile003 enc3 size maxSize).encodes, q ∈ chainFrom90)
  ∧ chainFrom90 = [90, 80, 70, 60, 50, 40, 30, 20, 10]
  ∧ ((∀ x ∈ chainFrom90, ∃ s, enc x = some s ∧ maxSize < s) →
      (processFile001 enc size maxSize).output = some FinalOut.copy ∧
      (processFile001 enc size maxSize).encodes = chainFrom90)
  ∧ (maxSize < size → (∀ x ∈ chainFrom90, maxSize < enc2 x) →
      (processFile002 enc2 size maxSize).output = some FinalOut.copy ∧
      (processFile002 enc2 size maxSize).encodes = chainFrom90 ∧
      (processFile003 enc2 size maxSize).output = some FinalOut.copy ∧
      (processFile003 enc2 size maxSize).encodes = chainFrom90) := by
  have hnlt : ¬ size < maxSize := by omega
  refine ⟨?_, ?_, ?_, by decide, ?_, ?_⟩
  · intro q hq
    rcases hL : loop001 enc maxSize chainFrom90 with ⟨e, cs, ts⟩
    have hsub := loop001_calls_subset enc maxSize chainFrom90
    rw [hL] at hsub
    cases e with
    | accepted q2 s =>
      simp only [processFile001, if_neg hnlt, hL] at hq
      exact hsub q hq
    | exhausted =>
      simp only [processFile001, if_neg hnlt, hL] at hq
      exact hsub q hq
    | errored q2 =>
      simp only [processFile001, if_neg hnlt, hL] at hq
      exact hsub q hq
  · intro q hq
    by_cases hle : size ≤ maxSize
    · simp [processFile002, hnlt, hle] at hq
    · rcases hL : loop002 enc2 maxSize chainFrom90 with ⟨o, cs, ts⟩
      have hsub := loop002_calls_subset enc2 maxSize chainFrom90
      rw [hL] at hsub
      cases o with
      | some p =>
        rcases p with ⟨q2, s⟩
        simp only [processFile002, if_neg hnlt, if_neg hle, hL] at hq
        exact hsub q hq
      | none =>
        simp only [processFile002, if_neg hnlt, if_neg hle, hL] at hq
        exact hsub q hq
  · intro q hq
    by_cases hle : size ≤ maxSize
    · simp [processFile003, hnlt, hle] at hq
    · rcases hL : loop002 enc3 maxSize chainFrom90 with ⟨o, cs, ts⟩
      have hsub := loop002_calls_subset enc3 maxSize chainFrom90
      rw [hL] at hsub
      cases o with
      | some p =>
        rcases p with ⟨q2, s⟩
        simp only [processFile003, if_neg hnlt, if_neg hle, hL] at hq
        exact hsub q hq
      | none =>
        simp only [processFile003, if_neg hnlt, if_neg hle, hL] at hq
        exact hsub q hq
  · intro hbig
    have hL := loop001_all_big enc maxSize chainFrom90 hbig
    constructor
    · simp only [processFile001, if_neg hnlt, hL]
    · simp only [processFile001, if_neg hnlt, hL]
  · intro hlt hbig
    have hle : ¬ size ≤ maxSize := by omega
    have hL := loop002_all_big enc2 maxSize chainFrom90 hbig
    refine ⟨?_, ?_, ?_, ?_⟩
    · simp only [processFile002, if_neg hnlt, if_neg hle, hL]
    · simp only [processFile002, if_neg hnlt, if_neg hle, hL]
    · simp only [processFile003, if_neg hnlt, if_neg hle, hL]
    · simp only [processFile003, if_neg hnlt, if_neg hle, hL]

/-- C10 witness: a 3,000,000-byte input with a constant 5,000,000-byte
encoder: every probe in {90, ..., 10} is over budget, the original is
copied, and the encode calls are exactly that probe set. -/
theorem probe_set_bounded_witness :
    (processFile001 (fun _ => some 5000000) 3000000 2097152).output = some FinalOut.copy
  ∧ (processFile001 (fun _ => some 5000000) 3000000 2097152).encodes = chainFrom90 :=
  (probe_set_bounded (fun _ => some 5000000) (fun _ => 5000000) (fun _ => 5000000)
    3000000 2097152 (by norm_num)).2.2.2.2.1 (by decide)

end ImgComp
